import Mathlib

/-!
Verification development for the xflag library: a command-line and
configuration-file argument parser extending a base flag registry with
ordinal (positional) flags, comma-separated list values, file-handle
values, glob expansion and config-file tokenization.

The Go source is shallowly embedded: strings are Lean `String`s
manipulated through their character lists, the filesystem (glob matching,
open/create) is an explicit oracle parameter, and mutation is explicit
state passing.  Process termination (`quitf`) and runtime panics are
modelled as `Option` failure.
-/

namespace Xflag

/-! ## String primitives (models of the Go standard library functions used) -/

/-- Model of `strings.Split(s, sep)` for a single-character separator:
splits at every occurrence of `sep`, keeping empty fields; the empty
string yields `[""]`. -/
def splitOnCharAux (sep : Char) : List Char → List Char → List String
  | [], acc => [String.mk acc.reverse]
  | c :: rest, acc =>
    if c = sep then String.mk acc.reverse :: splitOnCharAux sep rest []
    else splitOnCharAux sep rest (c :: acc)

def splitOnChar (sep : Char) (s : String) : List String :=
  splitOnCharAux sep s.data []

/-- Model of `strings.Split(value, ",")`. -/
def splitComma (s : String) : List String := splitOnChar ',' s

/-- Model of `strings.Join(parts, ",")`. -/
def joinComma : List String → String
  | [] => ""
  | [s] => s
  | s :: rest => s ++ "," ++ joinComma rest

/-- Characters treated as whitespace by Go `strings.TrimSpace` (ASCII part). -/
def isSpaceChar (c : Char) : Bool :=
  c = ' ' || c = '\t' || c = '\n' || c = '\x0b' || c = '\x0c' || c = '\r'

/-- Model of `strings.TrimSpace`. -/
def trimSpaceList (l : List Char) : List Char :=
  ((l.dropWhile isSpaceChar).reverse.dropWhile isSpaceChar).reverse

def trimSpace (s : String) : String := String.mk (trimSpaceList s.data)

/-- Model of `strings.Contains(s, c)` for a one-character needle. -/
def containsChar (s : String) (c : Char) : Bool := s.data.any (fun d => d = c)

/-- Model of `strings.IndexAny(a, "*?") > -1`: the token holds a wildcard. -/
def hasWildcard (s : String) : Bool := s.data.any (fun c => c = '*' || c = '?')

/-- Model of `strings.Replace(s, "\r\n", "\n", -1)`: leftmost
non-overlapping replacement of CRLF pairs by LF. -/
def normalizeCRLFList : List Char → List Char
  | [] => []
  | '\r' :: '\n' :: rest => '\n' :: normalizeCRLFList rest
  | c :: rest => c :: normalizeCRLFList rest

def normalizeCRLF (s : String) : String := String.mk (normalizeCRLFList s.data)

/-- Value of an all-digit character list; `none` when empty or when any
character is not a decimal digit. -/
def digitsVal? (l : List Char) : Option Nat :=
  match l with
  | [] => none
  | _ =>
    if l.all Char.isDigit then
      some (l.foldl (fun acc c => 10 * acc + (c.toNat - ('0').toNat)) 0)
    else none

/-- Model of `strconv.Atoi`: optional sign followed by at least one
decimal digit; any other shape is an error (`none`). -/
def atoi? (s : String) : Option Int :=
  match s.data with
  | '+' :: rest => (digitsVal? rest).map (fun n => (n : Int))
  | '-' :: rest => (digitsVal? rest).map (fun n => -(n : Int))
  | l => (digitsVal? l).map (fun n => (n : Int))

/-! ## Glob expander

`fs` is the `filepath.Glob` oracle: for a pattern it returns the sorted
list of matching filesystem paths (the error return is discarded by the
source, so a failing pattern contributes the empty match list). -/

/-- Embedding of `glob` from the source: each token containing `*` or `?`
is replaced by its matches, every other token passes through. -/
def glob (fs : String → List String) : List String → List String
  | [] => []
  | a :: rest => (if hasWildcard a then fs a else [a]) ++ glob fs rest

/-! ## File handle values

An abstraction of `*os.File`: the standard streams plus regular files
identified by an id handed out by the filesystem oracle
`fsOpen : String → Bool → Option Nat` (name, input-mode; `os.Open` when
the mode is input, `os.Create` otherwise; `none` is an open error). -/

inductive Handle where
  | stdin : Handle
  | stdout : Handle
  | file : Nat → Handle
deriving DecidableEq, Repr

/-- Embedding of the `fileValue` struct: handle (`nil` is `none`),
logical name, input mode, standard-stream marking. -/
structure fileValue where
  f : Option Handle
  name : String
  isIn : Bool
  std : Bool
deriving DecidableEq, Repr

/-- Embedding of `fileValue.Set`: returns the Go boolean result together
with the state of the receiver after the call. -/
def fileValue.Set (fsOpen : String → Bool → Option Nat) (this : fileValue)
    (name : String) : Bool × fileValue :=
  if name.length = 0 then
    (false, this)
  else if name = "stdin" then
    (true, { this with name := name, f := some Handle.stdin })
  else if name = "stdout" then
    (true, { this with name := name, f := some Handle.stdout })
  else
    let this1 := { this with std := false }
    match fsOpen name this.isIn with
    | none => (false, this1)
    | some id => (true, { this1 with name := name, f := some (Handle.file id) })

/-- Embedding of `fileValue.Close`: the handle the `f.Close()` call is
directed at, `none` when the standard-stream marking suppresses the call
(a `none` field would give a nil-receiver close, which reaches no
resource, so it is also reported as `none`). -/
def fileValue.Close (this : fileValue) : Option Handle :=
  if this.std then none else this.f

/-- Embedding of `newFileValue`: nil handle, given default name, given
mode, standard-stream marking initially true. -/
def newFileValue (name : String) (isIn : Bool) : fileValue :=
  ⟨none, name, isIn, true⟩

/-- Embedding of `FlagExtra.Close`: bulk teardown over the tracked file
collection; returns the handles the individual close calls reach. -/
def FlagExtraClose (files : List fileValue) : List Handle :=
  files.filterMap fileValue.Close

/-! ## List values

`ValueList.Set` drives an abstract `Converter`; a converter is a state
transformer `σ → String → Bool × σ` (Go result boolean plus the mutated
receiver).  The loop over the comma-separated parts is `processParts`. -/

/-- Embedding of the loop body of `ValueList.Set`: convert each part in
order, stopping at the first failure. -/
def processParts {σ : Type} (convert : σ → String → Bool × σ) :
    σ → List String → Bool × σ
  | st, [] => (true, st)
  | st, v :: rest =>
    let r := convert st v
    if r.1 then processParts convert r.2 rest else (false, r.2)

/-- Embedding of `ValueList.Set`: split on commas, then run the
converter over the parts. -/
def ValueListSet {σ : Type} (convert : σ → String → Bool × σ) (st : σ)
    (value : String) : Bool × σ :=
  processParts convert st (splitComma value)

/-- Embedding of `intsValue.Convert`: parse the part with `strconv.Atoi`
and append on success; the accumulated list is untouched on failure. -/
def intsConvert (ints : List Int) (v : String) : Bool × List Int :=
  match atoi? v with
  | none => (false, ints)
  | some i => (true, ints ++ [i])

/-- Embedding of `stringsValue.Convert`: always succeeds, appends verbatim. -/
def stringsConvert (l : List String) (v : String) : Bool × List String :=
  (true, l ++ [v])

/-- Embedding of `filesValue.Convert`: open a fresh file value to verify
the path, close it at once, record the name on success. -/
def filesConvert (fsOpen : String → Bool → Option Nat) (names : List String)
    (v : String) : Bool × List String :=
  let file := newFileValue v true
  let r := fileValue.Set fsOpen file v
  if r.1 then (true, names ++ [r.2.name]) else (false, names)

/-! ## Positional resolver

`FlagExtra.Parse` visits every registered flag; a flag is summarized by
its name, its declared default (`DefValue`) and whether its value
satisfies the `ListValue` marker interface.  The resolver computes the
string handed to `flag.Value.Set`; a runtime panic from a negative index
is `none`. -/

/-- Summary of a `flag.Flag` registry entry as the resolver sees it. -/
structure FlagEntry where
  name : String
  defValue : String
  isList : Bool
deriving DecidableEq, Repr

/-- Go slice expression `args[idx:]` with an `int` index: defined when
`0 ≤ idx ≤ len`, a bounds panic (`none`) otherwise. -/
def sliceFrom (args : List String) (idx : Int) : Option (List String) :=
  if 0 ≤ idx ∧ idx ≤ (args.length : Int) then some (args.drop idx.toNat)
  else none

/-- Go index expression `args[idx]` with an `int` index: defined when
`0 ≤ idx < len`, a bounds panic (`none`) otherwise. -/
def indexGet (args : List String) (idx : Int) : Option String :=
  if 0 ≤ idx ∧ idx < (args.length : Int) then args.get? idx.toNat
  else none

/-- Body of the resolver for one ordinal flag with parsed index `n`:
the string passed to `Set`, or `none` on an index panic. -/
def ordinalValue (args : List String) (defValue : String) (isList : Bool)
    (n : Int) : Option String :=
  let idx := n - 1
  if idx < (args.length : Int) then
    if isList then (sliceFrom args idx).map joinComma
    else indexGet args idx
  else some defValue

/-- Embedding of the `VisitAll` callback of `FlagExtra.Parse` for a single
registry entry: `none` when the flag is not ordinal or its suffix fails
`strconv.Atoi` (the latter is the fatal `bad flag index` diagnostic, so no
`Set` call happens either way); `some v` when `Set` is invoked, where `v`
is the argument string (`v = none` marks the index panic). -/
def positionalSetArg (args : List String) (e : FlagEntry) :
    Option (Option String) :=
  match e.name.data with
  | '#' :: rest =>
    match atoi? (String.mk rest) with
    | none => none
    | some n => some (ordinalValue args e.defValue e.isList n)
  | _ => none

/-! ## Config-file tokenizer -/

/-- Model of `line[0:strings.Index(line, "#")]` guarded by `idx > -1`:
truncate at the first `#`, identity when there is none. -/
def stripComment (line : String) : String :=
  String.mk (line.data.takeWhile (fun c => c ≠ '#'))

/-- Embedding of the per-line step of `ParseConfig`: strip the comment,
trim whitespace, drop the line if empty, and prefix `-` when it contains
`=` so it reads as a named command-line flag assignment. -/
def processConfigLine (line : String) : Option String :=
  let l1 := trimSpace (stripComment line)
  if l1.length > 0 then
    some (if containsChar l1 '=' then "-" ++ l1 else l1)
  else none

/-- Embedding of the tokenizing part of `ParseConfig`: normalize CRLF,
split into lines, process each line, keep the survivors in order. -/
def tokenizeConfig (contents : String) : List String :=
  (splitOnChar '\n' (normalizeCRLF contents)).filterMap processConfigLine

/-- The token stream `FlagExtra.Parse` hands to the base registry parse:
glob-expanded when `doGlob` is set.  `ParseConfig` always passes
`doGlob = true`; the command-line entry point passes `isWindows`. -/
def parseInput (fs : String → List String) (cmdline : List String)
    (doGlob : Bool) : List String :=
  if doGlob then glob fs cmdline else cmdline

/-- The token stream the config path feeds to the base parse. -/
def configParseInput (fs : String → List String) (contents : String) :
    List String :=
  parseInput fs (tokenizeConfig contents) true

/-- Modelled from the spec: the base flag registry (Go package `flag`,
outside this repository) binds a command-line token of the form
`-name=value` to the flag named `name` with the textual value `value`. -/
def parseNamedToken (tok : String) : Option (String × String) :=
  match tok.data with
  | '-' :: rest =>
    let nm := rest.takeWhile (fun c => c ≠ '=')
    match rest.dropWhile (fun c => c ≠ '=') with
    | '=' :: v => some (String.mk nm, String.mk v)
    | _ => none
  | _ => none

/-! ## Helper lemmas -/

theorem data_append (a b : String) : (a ++ b).data = a.data ++ b.data := rfl

theorem length_eq_data (s : String) : s.length = s.data.length := rfl

theorem normalizeCRLF_of_no_cr (l : List Char) (h : ∀ c ∈ l, c ≠ '\r') :
    normalizeCRLFList l = l := by
  induction l with
  | nil => rfl
  | cons c rest ih =>
    have hc : c ≠ '\r' := h c (by simp)
    have hr : normalizeCRLFList rest = rest :=
      ih (fun d hd => h d (by simp [hd]))
    cases rest with
    | nil => simp [normalizeCRLFList, hc]
    | cons d rest2 => simp [normalizeCRLFList, hc, hr]

theorem splitOnCharAux_no_sep (sep : Char) (l acc : List Char)
    (h : ∀ c ∈ l, c ≠ sep) :
    splitOnCharAux sep l acc = [String.mk (acc.reverse ++ l)] := by
  induction l generalizing acc with
  | nil => simp [splitOnCharAux]
  | cons c rest ih =>
    have hc : c ≠ sep := h c (by simp)
    have hr := ih (c :: acc) (fun d hd => h d (by simp [hd]))
    simp only [splitOnCharAux, if_neg hc, hr, List.reverse_cons, List.append_assoc,
      List.singleton_append]

theorem takeWhile_all {p : Char → Bool} (l : List Char) (h : ∀ c ∈ l, p c = true) :
    l.takeWhile p = l := by
  induction l with
  | nil => rfl
  | cons c rest ih =>
    simp [List.takeWhile_cons, h c (by simp), ih (fun d hd => h d (by simp [hd]))]

theorem stripComment_of_no_hash (line : String)
    (h : containsChar line '#' = false) : stripComment line = line := by
  unfold stripComment
  have hall : ∀ c ∈ line.data, (fun c => decide (c ≠ '#')) c = true := by
    simp only [containsChar, List.any_eq_false] at h
    intro c hc
    simpa using h c hc
  rw [takeWhile_all line.data hall]

theorem processConfigLine_flag (line : String)
    (hs : stripComment line = line) (ht : trimSpace line = line)
    (hlen : 0 < line.length) (heq : containsChar line '=' = true) :
    processConfigLine line = some ("-" ++ line) := by
  unfold processConfigLine
  rw [hs, ht, if_pos hlen, heq]
  rfl

theorem processParts_append_fail {σ : Type} (c : σ → String → Bool × σ)
    (pre : List String) (bad : String) (rest : List String) (st st1 : σ)
    (hpre : processParts c st pre = (true, st1)) (hbad : (c st1 bad).1 = false) :
    processParts c st (pre ++ bad :: rest) = (false, (c st1 bad).2) := by
  induction pre generalizing st with
  | nil =>
    simp only [processParts, Prod.mk.injEq, true_and] at hpre
    subst hpre
    simp [processParts, hbad]
  | cons a pre ih =>
    simp only [processParts] at hpre ⊢
    by_cases ha : (c st a).1
    · simp only [ha, if_true] at hpre ⊢
      exact ih _ hpre
    · simp only [ha, if_false] at hpre
      exact absurd (congrArg Prod.fst hpre) (by simp)

theorem intsProcess_success (ints : List Int) (parts : List String)
    (h : ∀ p ∈ parts, (atoi? p).isSome) :
    processParts intsConvert ints parts = (true, ints ++ parts.filterMap atoi?) := by
  induction parts generalizing ints with
  | nil => simp [processParts]
  | cons p rest ih =>
    obtain ⟨i, hi⟩ := Option.isSome_iff_exists.mp (h p (by simp))
    have hr := ih (ints ++ [i]) (fun q hq => h q (by simp [hq]))
    simp [processParts, intsConvert, hi, hr, List.filterMap_cons]

theorem intsProcess_state (ints : List Int) (parts : List String) :
    (processParts intsConvert ints parts).2
      = ints ++ (parts.takeWhile (fun p => (atoi? p).isSome)).filterMap atoi? := by
  induction parts generalizing ints with
  | nil => simp [processParts]
  | cons p rest ih =>
    match hi : atoi? p with
    | none =>
      simp [processParts, intsConvert, hi, List.takeWhile_cons]
    | some i =>
      have hr := ih (ints ++ [i])
      simp [processParts, intsConvert, hi, List.takeWhile_cons, hr,
        List.filterMap_cons]

/-! ## Claim theorems -/

/-- C4: the glob expander replaces every wildcard token by its match
list (an unmatched pattern contributes nothing, without error), passes
non-wildcard tokens through in position, and acts as the identity on an
input with no wildcard tokens. -/
theorem glob_spec (fs : String → List String) (tokens : List String) :
    glob fs tokens
      = tokens.flatMap (fun a => if hasWildcard a then fs a else [a]) ∧
    ((∀ a ∈ tokens, hasWildcard a = false) → glob fs tokens = tokens) := by
  have hbind : ∀ ts : List String,
      glob fs ts = ts.flatMap (fun a => if hasWildcard a then fs a else [a]) := by
    intro ts
    induction ts with
    | nil => rfl
    | cons a rest ih => simp [glob, ih]
  refine ⟨hbind tokens, fun h => ?_⟩
  induction tokens with
  | nil => rfl
  | cons a rest ih =>
    have ha : hasWildcard a = false := h a (by simp)
    have hrest : glob fs rest = rest := ih (fun b hb => h b (by simp [hb]))
    simp [glob, ha, hrest]

/-- Witness for C4 at a concrete wildcard-free input. -/
theorem glob_spec_witness : glob (fun _ => []) ["a", "b"] = ["a", "b"] :=
  (glob_spec (fun _ => []) ["a", "b"]).2 (by decide)

/-- C3: `ValueListSet` splits the token on commas and converts each part
left to right; for any converter, a failing part makes the whole call
fail with the state reached there, independently of the later parts
(short-circuit); for the integer list value, when all parts convert the
call succeeds and appends the converted parts in order. -/
theorem listSet_spec (ints : List Int) (tok : String) :
    (∀ (σ : Type) (convert : σ → String → Bool × σ) (st st1 : σ)
        (pre : List String) (bad : String) (rest : List String),
       splitComma tok = pre ++ bad :: rest →
       processParts convert st pre = (true, st1) →
       (convert st1 bad).1 = false →
       ValueListSet convert st tok = (false, (convert st1 bad).2)) ∧
    ((∀ p ∈ splitComma tok, (atoi? p).isSome) →
       ValueListSet intsConvert ints tok
         = (true, ints ++ (splitComma tok).filterMap atoi?)) := by
  constructor
  · intro σ convert st st1 pre bad rest hsplit hpre hbad
    unfold ValueListSet
    rw [hsplit]
    exact processParts_append_fail convert pre bad rest st st1 hpre hbad
  · intro h
    unfold ValueListSet
    exact intsProcess_success ints (splitComma tok) h

/-- Witness for C3: all-successful conversion of a concrete token. -/
theorem listSet_spec_witness :
    ValueListSet intsConvert [] "1,2,3" = (true, [1, 2, 3]) := by
  have h := (listSet_spec [] "1,2,3").2 (by decide)
  rw [h]
  decide

/-- Counterexample to C2 as stated: two successive successful `Set`
calls leave the elements of the first call in the accumulation, so the
result is not the conversion of the last token alone. -/
theorem listSet_twice_cex :
    (ValueListSet intsConvert [] "1").1 = true ∧
    (ValueListSet intsConvert (ValueListSet intsConvert [] "1").2 "2").1 = true ∧
    (ValueListSet intsConvert (ValueListSet intsConvert [] "1").2 "2").2 = [1, 2] ∧
    ([1, 2] : List Int) ≠ [2] := by decide

/-- C2 amended: a `Set` call on the integer list value appends to the
accumulation the in-order conversions of the longest prefix of the
token's comma-separated parts that converts successfully; elements from
earlier `Set` calls remain in place (the accumulation is never reset). -/
theorem listSet_accumulates (ints : List Int) (tok : String) :
    (ValueListSet intsConvert ints tok).2
      = ints
        ++ ((splitComma tok).takeWhile (fun p => (atoi? p).isSome)).filterMap atoi? := by
  unfold ValueListSet
  exact intsProcess_state ints (splitComma tok)

theorem positionalSetArg_ordinal (args : List String) (dv : String) (lst : Bool)
    (rest : List Char) :
    positionalSetArg args ⟨String.mk ('#' :: rest), dv, lst⟩
      = match atoi? (String.mk rest) with
        | none => none
        | some n => some (ordinalValue args dv lst n) := rfl

theorem ordinalValue_pos (args : List String) (dv : String) (lst : Bool)
    (N : Int) (hpos : 1 ≤ N) :
    ordinalValue args dv lst N =
      if N - 1 < (args.length : Int) then
        (if lst then some (joinComma (args.drop (N - 1).toNat))
         else args.get? (N - 1).toNat)
      else some dv := by
  unfold ordinalValue sliceFrom indexGet
  by_cases h : (N - 1 : Int) < (args.length : Int)
  · simp only [if_pos h]
    by_cases hl : lst
    · have hc : (0 : Int) ≤ N - 1 ∧ N - 1 ≤ (args.length : Int) := by omega
      simp [hl, hc]
    · have hc : (0 : Int) ≤ N - 1 ∧ N - 1 < (args.length : Int) := by omega
      simp [hl, hc]
  · simp [h]

/-- Counterexample to C1 as stated: for a list-typed ordinal flag whose
index is out of range (flag `#2`, one positional argument, default `5`)
the resolver passes the declared default to `Set`, not the
comma-join of the (empty) tail of the positional arguments. -/
theorem ordinal_list_default_cex :
    positionalSetArg ["10"] ⟨"#2", "5", true⟩ = some (some "5") ∧
    joinComma (List.drop 1 ["10"]) = "" ∧ ("5" : String) ≠ "" := by decide

/-- C1 amended: for an ordinal flag `#N` with `N ≥ 1`, when `N-1` is in
range `Set` receives the comma-join of the positional arguments from
`N-1` onward for a list value and the single argument at `N-1` for a
scalar; when `N-1` is out of range `Set` receives the declared default
for list and scalar values alike. -/
theorem ordinal_resolution (args : List String) (dv : String) (lst : Bool)
    (rest : List Char) (N : Int)
    (hname : atoi? (String.mk rest) = some N) (hpos : 1 ≤ N) :
    positionalSetArg args ⟨String.mk ('#' :: rest), dv, lst⟩
      = some (if N - 1 < (args.length : Int) then
                (if lst then some (joinComma (args.drop (N - 1).toNat))
                 else args.get? (N - 1).toNat)
              else some dv) := by
  rw [positionalSetArg_ordinal, hname]
  exact congrArg some (ordinalValue_pos args dv lst N hpos)

/-- Witness for C1 amended: a single list-typed ordinal flag `#1` with
three positional arguments binds their comma-join. -/
theorem ordinal_resolution_witness :
    positionalSetArg ["10", "20", "30"] ⟨String.mk ['#', '1'], "", true⟩
      = some (some "10,20,30") := by
  rw [ordinal_resolution ["10", "20", "30"] "" true ['1'] 1 (by decide) (by decide)]
  decide

/-- C9: for an ordinal flag whose suffix parses to the integer `N`, the
resolver performs its index and slice accesses in bounds (no panic, a
definite string reaches `Set`) exactly when `N ≥ 1`; the numeric parse
alone does not exclude `N ≤ 0`, which panics on every argument list. -/
theorem ordinal_access_in_bounds (args : List String) (dv : String) (lst : Bool)
    (rest : List Char) (N : Int) (hname : atoi? (String.mk rest) = some N) :
    (∃ v, positionalSetArg args ⟨String.mk ('#' :: rest), dv, lst⟩ = some (some v))
      ↔ 1 ≤ N := by
  rw [positionalSetArg_ordinal, hname]
  show (∃ v, some (ordinalValue args dv lst N) = some (some v)) ↔ 1 ≤ N
  simp only [Option.some_inj]
  constructor
  · rintro ⟨v, hv⟩
    by_contra hneg
    have hN : N ≤ 0 := by omega
    have hnone : ordinalValue args dv lst N = none := by
      unfold ordinalValue sliceFrom indexGet
      have hlt : N - 1 < (args.length : Int) := by omega
      have hc : ¬ (0 : Int) ≤ N - 1 := by omega
      by_cases hl : lst
      · simp [hlt, hl, hc]
      · simp [hlt, hl, hc]
    rw [hnone] at hv
    exact Option.noConfusion hv
  · intro hpos
    rw [ordinalValue_pos args dv lst N hpos]
    by_cases hlt : N - 1 < (args.length : Int)
    · by_cases hl : lst
      · exact ⟨joinComma (args.drop (N - 1).toNat), by rw [if_pos hlt, if_pos hl]⟩
      · have hk : (N - 1).toNat < args.length := by omega
        refine ⟨args.get ⟨(N - 1).toNat, hk⟩, ?_⟩
        rw [if_pos hlt, if_neg hl, List.get?_eq_get hk]
    · exact ⟨dv, by rw [if_neg hlt]⟩

/-- Witness for C9: flag `#1` over one positional argument. -/
theorem ordinal_access_witness :
    ((∃ v, positionalSetArg ["a"] ⟨String.mk ['#', '1'], "d", false⟩ = some (some v))
      ↔ (1 : Int) ≤ 1) :=
  ordinal_access_in_bounds ["a"] "d" false ['1'] 1 (by decide)

/-- C5: a `Set` on a file handle value fails on the empty token and on a
regular path the filesystem refuses to open (input mode) or create
(output mode); in each failure case the handle field stays `nil`. -/
theorem fileSet_failure_no_handle (fsOpen : String → Bool → Option Nat)
    (v : fileValue) (nm : String) (hnil : v.f = none)
    (hfail : nm = "" ∨ (nm ≠ "stdin" ∧ nm ≠ "stdout" ∧ fsOpen nm v.isIn = none)) :
    (fileValue.Set fsOpen v nm).1 = false ∧ (fileValue.Set fsOpen v nm).2.f = none := by
  unfold fileValue.Set
  rcases hfail with h | ⟨h1, h2, h3⟩
  · subst h
    simp [hnil]
  · by_cases hlen : nm.length = 0
    · simp [hlen, hnil]
    · rw [if_neg hlen, if_neg h1, if_neg h2]
      simp [h3, hnil]

/-- Witness for C5: opening a nonexistent path fails and binds nothing. -/
theorem fileSet_failure_witness :
    (fileValue.Set (fun _ _ => none) (newFileValue "stdin" true) "nope").1 = false ∧
    (fileValue.Set (fun _ _ => none) (newFileValue "stdin" true) "nope").2.f = none :=
  fileSet_failure_no_handle (fun _ _ => none) (newFileValue "stdin" true) "nope"
    rfl (Or.inr (by decide))

/-- Counterexample to C10 as stated: a failed open on a fresh value
(whose standard-stream marking starts out true) flips the marking to
false, so the value is not left entirely unchanged. -/
theorem fileSet_not_atomic_cex :
    (fileValue.Set (fun _ _ => none) ⟨none, "stdin", true, true⟩ "x").1 = false ∧
    (fileValue.Set (fun _ _ => none) ⟨none, "stdin", true, true⟩ "x").2.std = false ∧
    (⟨none, "stdin", true, true⟩ : fileValue).std = true := by decide

/-- C10 amended: a failed `Set` leaves the handle, the logical name and
the mode unchanged; the standard-stream marking is unchanged only for
the empty-token failure and is forced to false by a failed open or
create of a regular path. -/
theorem fileSet_failure_state (fsOpen : String → Bool → Option Nat)
    (v : fileValue) (nm : String)
    (hfail : (fileValue.Set fsOpen v nm).1 = false) :
    (fileValue.Set fsOpen v nm).2.f = v.f ∧
    (fileValue.Set fsOpen v nm).2.name = v.name ∧
    (fileValue.Set fsOpen v nm).2.isIn = v.isIn ∧
    (fileValue.Set fsOpen v nm).2.std = (if nm.length = 0 then v.std else false) := by
  unfold fileValue.Set at hfail ⊢
  by_cases hlen : nm.length = 0
  · simp [hlen]
  · rw [if_neg hlen] at hfail ⊢
    by_cases h1 : nm = "stdin"
    · rw [if_pos h1] at hfail
      exact absurd hfail (by simp)
    · rw [if_neg h1] at hfail ⊢
      by_cases h2 : nm = "stdout"
      · rw [if_pos h2] at hfail
        exact absurd hfail (by simp)
      · rw [if_neg h2] at hfail ⊢
        cases h3 : fsOpen nm v.isIn with
        | none => simp [h3, hlen]
        | some id =>
          rw [h3] at hfail
          exact absurd hfail (by simp)

/-- Witness for C10 amended at a failed open of a regular path. -/
theorem fileSet_failure_state_witness :
    (fileValue.Set (fun _ _ => none) ⟨none, "n", true, true⟩ "x").2.f = none ∧
    (fileValue.Set (fun _ _ => none) ⟨none, "n", true, true⟩ "x").2.name = "n" ∧
    (fileValue.Set (fun _ _ => none) ⟨none, "n", true, true⟩ "x").2.isIn = true ∧
    (fileValue.Set (fun _ _ => none) ⟨none, "n", true, true⟩ "x").2.std = false :=
  fileSet_failure_state (fun _ _ => none) ⟨none, "n", true, true⟩ "x" (by decide)

/-- C6 amended: a close on a value whose standard-stream marking is true
reaches no handle, and every handle reached by the bulk teardown of the
facade comes from a tracked value whose marking is false; values whose
`Set` calls only ever used the tokens `stdin` or `stdout` keep the
marking true from creation. -/
theorem std_stream_never_closed :
    (∀ v : fileValue, v.std = true → fileValue.Close v = none) ∧
    (∀ (files : List fileValue) (h : Handle), h ∈ FlagExtraClose files →
       ∃ u, u ∈ files ∧ u.std = false ∧ u.f = some h) := by
  constructor
  · intro v hv
    unfold fileValue.Close
    rw [if_pos hv]
  · intro files h hmem
    unfold FlagExtraClose at hmem
    obtain ⟨u, hu, hcl⟩ := List.mem_filterMap.mp hmem
    have hstd : u.std = false := by
      cases hs : u.std
      · rfl
      · unfold fileValue.Close at hcl
        rw [if_pos hs] at hcl
        exact Option.noConfusion hcl
    have hf : u.f = some h := by
      unfold fileValue.Close at hcl
      rw [if_neg (by simp [hstd])] at hcl
      exact hcl
    exact ⟨u, hu, hstd, hf⟩

/-- Witness for C6 amended: a standard-stream value is never closed. -/
theorem std_stream_never_closed_witness :
    fileValue.Close ⟨some Handle.stdin, "stdin", true, true⟩ = none :=
  std_stream_never_closed.1 ⟨some Handle.stdin, "stdin", true, true⟩ rfl

/-- Counterexample to C6 as stated: a value first `Set` to a regular
path and then `Set` with the literal token `stdin` holds the standard
input handle with the marking false, so both a direct close and the
facade teardown reach the standard input handle. -/
theorem stdin_reSet_closed_cex :
    ((fileValue.Set (fun _ _ => some 0)
        (fileValue.Set (fun _ _ => some 0) (newFileValue "stdin" true) "f").2 "stdin").2.f
      = some Handle.stdin) ∧
    (fileValue.Close (fileValue.Set (fun _ _ => some 0)
        (fileValue.Set (fun _ _ => some 0) (newFileValue "stdin" true) "f").2 "stdin").2
      = some Handle.stdin) ∧
    (FlagExtraClose [(fileValue.Set (fun _ _ => some 0)
        (fileValue.Set (fun _ _ => some 0) (newFileValue "stdin" true) "f").2 "stdin").2]
      = [Handle.stdin]) := by decide

/-- C7: a config-file line `name=value` (no comment character, no line
break, no surrounding whitespace, no wildcard) is tokenized into exactly
the command-line token `-name=value`, so feeding the config file and
feeding that token through the parse pipeline give the same outcome for
every base registry parse, whichever glob setting the command-line path
uses. -/
theorem config_cmdline_roundtrip {ρ : Type} (base : List String → ρ)
    (fs : String → List String) (name value : String) (dg : Bool)
    (hhash : containsChar (name ++ "=" ++ value) '#' = false)
    (hnl : containsChar (name ++ "=" ++ value) '\n' = false)
    (hcr : containsChar (name ++ "=" ++ value) '\r' = false)
    (htrim : trimSpace (name ++ "=" ++ value) = name ++ "=" ++ value)
    (hwild : hasWildcard ("-" ++ (name ++ "=" ++ value)) = false) :
    base (configParseInput fs (name ++ "=" ++ value))
      = base (parseInput fs ["-" ++ (name ++ "=" ++ value)] dg) := by
  have hncr : ∀ c ∈ (name ++ "=" ++ value).data, c ≠ '\r' := by
    simp only [containsChar, List.any_eq_false] at hcr
    intro c hc
    simpa using hcr c hc
  have hnnl : ∀ c ∈ (name ++ "=" ++ value).data, c ≠ '\n' := by
    simp only [containsChar, List.any_eq_false] at hnl
    intro c hc
    simpa using hnl c hc
  have heq : containsChar (name ++ "=" ++ value) '=' = true := by
    simp [containsChar, data_append]
  have hlen : 0 < (name ++ "=" ++ value).length := by
    rw [length_eq_data]
    by_contra hz
    have hd : (name ++ "=" ++ value).data = [] := by
      cases hdata : (name ++ "=" ++ value).data with
      | nil => rfl
      | cons a l => rw [hdata] at hz; simp at hz
    simp [containsChar, hd] at heq
  have htok : tokenizeConfig (name ++ "=" ++ value)
      = ["-" ++ (name ++ "=" ++ value)] := by
    unfold tokenizeConfig
    unfold normalizeCRLF
    rw [normalizeCRLF_of_no_cr _ hncr]
    unfold splitOnChar
    rw [splitOnCharAux_no_sep '\n' _ [] hnnl]
    simp only [List.reverse_nil, List.nil_append]
    have hmk : String.mk (name ++ "=" ++ value).data = name ++ "=" ++ value := rfl
    rw [hmk, List.filterMap_cons,
      processConfigLine_flag _ (stripComment_of_no_hash _ hhash) htrim hlen heq]
    rfl
  have hglob : glob fs ["-" ++ (name ++ "=" ++ value)]
      = ["-" ++ (name ++ "=" ++ value)] := by
    simp [glob, hwild]
  unfold configParseInput parseInput
  rw [htok]
  cases dg with
  | true => simp [hglob]
  | false => simp [hglob]

/-- Witness for C7 at the concrete line `age=12`. -/
theorem config_cmdline_roundtrip_witness :
    configParseInput (fun _ => []) "age=12"
      = parseInput (fun _ => []) ["-age=12"] false :=
  config_cmdline_roundtrip id (fun _ => []) "age" "12" false (by decide) (by decide)
    (by decide) (by decide) (by decide)

/-- C8: the config tokenizer yields no tokens from a file whose every
line is blank or comment-only (all flags stay at their defaults since
the base parse receives nothing), and the line
`age=12  # age of animal` becomes the token `-age=12`, which the base
registry binds as flag `age` with value `12`, an integer parse of 12. -/
theorem config_tokenizer_spec :
    (∀ contents : String,
       (∀ line ∈ splitOnChar '\n' (normalizeCRLF contents),
          trimSpace (stripComment line) = "") →
       tokenizeConfig contents = []) ∧
    tokenizeConfig "age=12  # age of animal" = ["-age=12"] ∧
    parseNamedToken "-age=12" = some ("age", "12") ∧
    atoi? "12" = some 12 := by
  refine ⟨?_, by decide, by decide, by decide⟩
  intro contents h
  unfold tokenizeConfig
  rw [List.filterMap_eq_nil_iff]
  intro line hline
  unfold processConfigLine
  rw [h line hline]
  rfl

/-- Witness for C8 on a file of comments and blank lines. -/
theorem config_tokenizer_witness :
    tokenizeConfig "# a comment\n\n   \n# another" = [] :=
  config_tokenizer_spec.1 "# a comment\n\n   \n# another" (by decide)

end Xflag
